import Mathlib

/-!
Verification of the quote-manager repository (`dom-manipulation/script.js`
and its sibling drafts) against its natural-language specification.

The development shallowly embeds the pure core of the program:
  * quote records (`text`/`category` string pairs, as the objects pushed
    into the `quotes` array by the source),
  * a structural JSON value type standing for what `JSON.parse` yields,
  * durable storage as the parse status of the stored string,
  * the operations `loadQuotes`, `saveQuotes`, `addQuoteFromInputs`,
    `populateCategories`, `exportQuotesToJson`, `importFromJsonFile`
    translated from `src/dom-manipulation/script.js`.
The synchronization/merge engine and the id counter policy described by
the specification live in a mature draft of the corpus that is not among
the shipped source files; those definitions are modelled from the
specification's own words and marked as such.
-/

namespace QuoteApp

/-- A quote record as the source constructs it: an object holding a
`text` string and a `category` string (`script.js` line 150). -/
structure Quote where
  text : String
  category : String
deriving DecidableEq

/-- Structural JSON values, the results of `JSON.parse`. -/
inductive Json where
  | null : Json
  | jbool : Bool → Json
  | jnum : Int → Json
  | jstr : String → Json
  | jarr : List Json → Json
  | jobj : List (String × Json) → Json

/-- Property lookup on a parsed JSON object. `JSON.parse` keeps the last
binding of a duplicated key, hence the reverse before the lookup. -/
def jlook (fields : List (String × Json)) (k : String) : Option Json :=
  fields.reverse.lookup k

/-- `isValidQuote` from `script.js` lines 69-71: the value is truthy and
its `text` and `category` properties are strings.  Only a parsed object
can satisfy this: on every other JSON value the property accesses yield
`undefined`, whose `typeof` is not `"string"`. -/
def isValidQuote : Json → Bool
  | Json.jobj fields =>
      (match jlook fields "text" with
       | some (Json.jstr _) => true
       | _ => false)
      &&
      (match jlook fields "category" with
       | some (Json.jstr _) => true
       | _ => false)
  | _ => false

/-- Projection of a valid parsed quote object to the record fields the
program reads (`text` and `category`); used where the source stores the
parsed objects themselves in the `quotes` array. -/
def toQuote : Json → Quote
  | Json.jobj fields =>
      { text :=
          match jlook fields "text" with
          | some (Json.jstr s) => s
          | _ => ""
        category :=
          match jlook fields "category" with
          | some (Json.jstr s) => s
          | _ => "" }
  | _ => { text := "", category := "" }

/-- The hard-coded default quote set, `script.js` lines 10-15. -/
def DEFAULT_QUOTES : List Quote :=
  [ { text := "The best way to get started is to quit talking and begin doing.", category := "Motivation" },
    { text := "Success is not in what you have, but who you are.", category := "Success" },
    { text := "Happiness depends upon ourselves.", category := "Happiness" },
    { text := "Be the change that you wish to see in the world.", category := "Inspiration" } ]

/-- JSON serialization of one quote record (the shape
`JSON.stringify` produces for the objects the program builds). -/
def encodeQuote (q : Quote) : Json :=
  Json.jobj [("text", Json.jstr q.text), ("category", Json.jstr q.category)]

/-- JSON serialization of the whole collection. -/
def encodeQuotes (qs : List Quote) : Json :=
  Json.jarr (qs.map encodeQuote)

/-- Durable-storage state for the quotes key, by parse status of the
stored string: absent, present but rejected by `JSON.parse`, or present
and parsing to a JSON value. -/
inductive Stored where
  | absent : Stored
  | unparseable : Stored
  | parsed : Json → Stored

/-- `saveQuotes` from `script.js` lines 34-40: overwrite durable storage
with the serialized collection (which always parses back to its encoding). -/
def saveQuotes (qs : List Quote) : Stored :=
  Stored.parsed (encodeQuotes qs)

/-- `loadQuotes` from `script.js` lines 42-66: absent or unparseable
stored data, or parsed data that is not an array of valid quote objects,
resets the collection to the defaults and immediately persists them;
valid stored data becomes the in-memory collection.  Returns the new
in-memory collection together with the new durable state.  The function
is total: no failure escapes. -/
def loadQuotes : Stored → List Quote × Stored
  | Stored.absent => (DEFAULT_QUOTES, saveQuotes DEFAULT_QUOTES)
  | Stored.unparseable => (DEFAULT_QUOTES, saveQuotes DEFAULT_QUOTES)
  | Stored.parsed j =>
      match j with
      | Json.jarr xs =>
          if xs.all isValidQuote then (xs.map toQuote, Stored.parsed (Json.jarr xs))
          else (DEFAULT_QUOTES, saveQuotes DEFAULT_QUOTES)
      | _ => (DEFAULT_QUOTES, saveQuotes DEFAULT_QUOTES)

/-- Distinct values in first-seen order, the semantics of the source's
`[...new Set(xs)]` (JavaScript `Set` iterates in insertion order, keeping
the first occurrence of each value). -/
def firstSeen : List String → List String
  | [] => []
  | c :: cs => c :: firstSeen (cs.filter (fun x => x != c))
termination_by l => l.length
decreasing_by
  simp only [List.length_cons]
  exact Nat.lt_succ_of_le (List.length_filter_le _ _)

/-- The category list computed by `populateCategories`
(`script.js` line 77): `[...new Set(quotes.map(q => q.category))]`. -/
def populateCategories (qs : List Quote) : List String :=
  firstSeen (qs.map Quote.category)

/-- Whitespace trimming on a character list: drop leading and trailing
whitespace characters. -/
def trimChars (l : List Char) : List Char :=
  ((l.dropWhile Char.isWhitespace).reverse.dropWhile Char.isWhitespace).reverse

/-- The JavaScript `String.prototype.trim()` used on the add inputs:
remove whitespace from both ends of the string. -/
def jsTrim (s : String) : String :=
  String.mk (trimChars s.data)

/-- Outcome of the add operation, mirroring the three exits of
`addQuoteFromInputs` (`script.js` lines 141-170): validation alert,
duplicate alert, or a successful append. -/
inductive AddResult where
  | ok : Quote → AddResult
  | validationError : AddResult
  | duplicateError : AddResult
deriving DecidableEq

/-- The mutable state `addQuoteFromInputs` touches: the in-memory
`quotes` array, the durable quotes key, and the session-storage
last-quote key. -/
structure AppState where
  quotes : List Quote
  durable : Stored
  session : Option Quote

/-- `addQuoteFromInputs` from `script.js` lines 141-170: trim both
inputs; reject (alert, no mutation) if either is empty; reject (alert,
no mutation) if a record with the same text and category already exists;
otherwise push the new record, persist, and record it as the
session-storage last quote. -/
def addQuoteFromInputs (st : AppState) (textInput categoryInput : String) :
    AppState × AddResult :=
  if jsTrim textInput = "" ∨ jsTrim categoryInput = "" then
    (st, AddResult.validationError)
  else if ∃ q ∈ st.quotes, q.text = jsTrim textInput ∧ q.category = jsTrim categoryInput then
    (st, AddResult.duplicateError)
  else
    ({ quotes := st.quotes ++ [⟨jsTrim textInput, jsTrim categoryInput⟩],
       durable := saveQuotes (st.quotes ++ [⟨jsTrim textInput, jsTrim categoryInput⟩]),
       session := some ⟨jsTrim textInput, jsTrim categoryInput⟩ },
     AddResult.ok ⟨jsTrim textInput, jsTrim categoryInput⟩)

/-- Outcome of an import, mirroring the three alerts of
`importFromJsonFile` (`script.js` lines 272-316): success with the count
of records actually added, a parse failure, or a shape failure. -/
inductive ImportResult where
  | ok : Nat → ImportResult
  | malformed : ImportResult
  | invalidShape : ImportResult
deriving DecidableEq

/-- The merge loop of `importFromJsonFile` (`script.js` lines 286-294):
fold over the imported records, appending each one whose text/category
pair is not already present in the (growing) collection, counting the
records actually appended. -/
def importMerge (cur imported : List Quote) : List Quote × Nat :=
  imported.foldl
    (fun acc q =>
      if ∃ ex ∈ acc.1, ex.text = q.text ∧ ex.category = q.category then acc
      else (acc.1 ++ [q], acc.2 + 1))
    (cur, 0)

/-- Content of a user-selected import file, by parse status. -/
inductive Payload where
  | unparseable : Payload
  | parsed : Json → Payload

/-- `importFromJsonFile` from `script.js` lines 272-316: parse the file
text (a parse failure aborts with the "Failed to import JSON" alert);
require an array whose every element is a valid quote object (otherwise
abort with the "Invalid JSON format" alert); then run the duplicate-
suppressing merge loop and report how many records were added.  On
either failure the collection is returned untouched. -/
def importFromJsonFile (cur : List Quote) : Payload → List Quote × ImportResult
  | Payload.unparseable => (cur, ImportResult.malformed)
  | Payload.parsed j =>
      match j with
      | Json.jarr xs =>
          if xs.all isValidQuote then
            let res := importMerge cur (xs.map toQuote)
            (res.1, ImportResult.ok res.2)
          else (cur, ImportResult.invalidShape)
      | _ => (cur, ImportResult.invalidShape)

/-- `exportQuotesToJson` from `script.js` lines 252-269 serializes the
full collection with `JSON.stringify(quotes, null, 2)`; we model the
parsed form of the emitted bytes. -/
def exportQuotesToJson (qs : List Quote) : Json :=
  encodeQuotes qs

/-- Modelled from the spec: the Quote Record of the data model section,
`{ id: integer, text: string, category: string }`, used by the merge
engine and the id counter policy; these live in the mature draft of the
corpus that is not among the shipped source files. -/
structure QuoteR where
  id : Nat
  text : String
  category : String
deriving DecidableEq

/-- Modelled from the spec: one step of the Merge Engine algorithm for a
remote record `r` — look up the (first) local record `l` with
`l.id == r.id`; not found, append `r`; found, overwrite `l` in place
with `r` (an overwrite with an identical record leaves the collection
as it was). -/
def applyRemote : List QuoteR → QuoteR → List QuoteR
  | [], r => [r]
  | l :: ls, r => if l.id = r.id then r :: ls else l :: applyRemote ls r

/-- Modelled from the spec: whether the merge step for remote record `r`
affects the collection — `true` on an append, `true` on an overwrite by
a structurally different record, `false` when the found local record is
structurally identical to `r`. -/
def remoteChanged : List QuoteR → QuoteR → Bool
  | [], _ => true
  | l :: ls, r => if l.id = r.id then decide (l ≠ r) else remoteChanged ls r

/-- Modelled from the spec: the Merge Engine — process each remote
record of the snapshot in snapshot order against the evolving
collection, reporting the count of affected (appended or overwritten)
records. -/
def syncMerge (c : List QuoteR) (s : List QuoteR) : List QuoteR × Nat :=
  s.foldl
    (fun acc r =>
      (applyRemote acc.1 r, if remoteChanged acc.1 r then acc.2 + 1 else acc.2))
    (c, 0)

/-- Modelled from the spec: the largest id present in the collection,
`0` when the collection is empty. -/
def maxId (c : List QuoteR) : Nat :=
  c.foldr (fun q m => max q.id m) 0

/-- Modelled from the spec: the local id counter policy,
`max(existing ids) + 1`, or `1` if the collection is empty. -/
def nextId (c : List QuoteR) : Nat :=
  maxId c + 1

/-- Modelled from the spec: the Record Store `add` operation — assign
the new record an id per the counter policy and append it; returns the
updated collection and the record produced. -/
def addRecord (c : List QuoteR) (text category : String) : List QuoteR × QuoteR :=
  let r : QuoteR := { id := nextId c, text := text, category := category }
  (c ++ [r], r)

/-! Supporting lemmas. -/

/-- Every id in the collection is bounded by `maxId`. -/
theorem mem_id_le_maxId {c : List QuoteR} {q : QuoteR} (h : q ∈ c) : q.id ≤ maxId c := by
  induction c with
  | nil => cases h
  | cons x xs ih =>
      show q.id ≤ max x.id (maxId xs)
      rcases List.mem_cons.mp h with h | h
      · subst h; exact le_max_left _ _
      · exact le_trans (ih h) (le_max_right _ _)

/-! Claim theorems. -/

/-- C4: every durable-storage state that is absent, unparseable, or not
an ordered sequence of quote-shaped objects makes `loadQuotes` return
the default record set and immediately overwrite durable storage with
that default set (and `loadQuotes` is total, so no failure escapes). -/
theorem loadQuotes_invalid_resets_to_defaults (raw : Stored)
    (h : ∀ xs, raw = Stored.parsed (Json.jarr xs) → xs.all isValidQuote = false) :
    loadQuotes raw = (DEFAULT_QUOTES, saveQuotes DEFAULT_QUOTES) := by
  cases raw with
  | absent => rfl
  | unparseable => rfl
  | parsed j =>
      cases j with
      | jarr xs =>
          have hx := h xs rfl
          simp [loadQuotes, hx]
      | null => rfl
      | jbool b => rfl
      | jnum n => rfl
      | jstr s => rfl
      | jobj f => rfl

/-- C4 witness: unparseable durable data falls back to the defaults and
persists them. -/
theorem loadQuotes_invalid_resets_to_defaults_witness :
    loadQuotes Stored.unparseable = (DEFAULT_QUOTES, saveQuotes DEFAULT_QUOTES) :=
  loadQuotes_invalid_resets_to_defaults Stored.unparseable (fun _ h => nomatch h)

/-- C8: when either input is empty after trimming, the add operation
reports a validation error and leaves the whole state (in-memory
collection, durable storage, session storage) exactly as it was. -/
theorem addQuoteFromInputs_empty_input_rejected (st : AppState) (t c : String)
    (h : jsTrim t = "" ∨ jsTrim c = "") :
    addQuoteFromInputs st t c = (st, AddResult.validationError) := by
  unfold addQuoteFromInputs
  rw [if_pos h]

/-- C8 witness: a whitespace-only quote text is rejected without any
mutation. -/
theorem addQuoteFromInputs_empty_input_rejected_witness :
    (jsTrim " " = "" ∨ jsTrim "x" = "") ∧
      addQuoteFromInputs ⟨[], Stored.absent, none⟩ " " "x" =
        (⟨[], Stored.absent, none⟩, AddResult.validationError) :=
  ⟨Or.inl (by decide),
   addQuoteFromInputs_empty_input_rejected _ _ _ (Or.inl (by decide))⟩

/-- C10: with non-empty trimmed inputs whose text/category pair is
already present in the collection, the add operation reports a
duplicate rejection and leaves the whole state exactly as it was. -/
theorem addQuoteFromInputs_duplicate_rejected (st : AppState) (t c : String)
    (ht : ¬ jsTrim t = "") (hc : ¬ jsTrim c = "")
    (hdup : ∃ q ∈ st.quotes, q.text = jsTrim t ∧ q.category = jsTrim c) :
    addQuoteFromInputs st t c = (st, AddResult.duplicateError) := by
  unfold addQuoteFromInputs
  rw [if_neg (fun h => h.elim ht hc), if_pos hdup]

/-- C10 witness: adding an exact duplicate of the one stored record is
rejected and the state is unchanged. -/
theorem addQuoteFromInputs_duplicate_rejected_witness :
    addQuoteFromInputs ⟨[⟨"A", "X"⟩], Stored.absent, none⟩ "A" "X" =
      (⟨[⟨"A", "X"⟩], Stored.absent, none⟩, AddResult.duplicateError) :=
  addQuoteFromInputs_duplicate_rejected _ _ _ (by decide) (by decide)
    ⟨⟨"A", "X"⟩, by simp, by decide⟩

/-- C3: the record produced by `add` carries an id strictly greater than
every id already present; the first `add` on an empty collection yields
id 1 and a second `add` yields id 2. -/
theorem addRecord_counter_policy :
    (∀ (c : List QuoteR) (t k : String), ∀ q ∈ c, q.id < (addRecord c t k).2.id) ∧
    (∀ t k, (addRecord [] t k).2.id = 1) ∧
    (∀ t1 k1 t2 k2, (addRecord (addRecord [] t1 k1).1 t2 k2).2.id = 2) := by
  refine ⟨?_, ?_, ?_⟩
  · intro c t k q hq
    have hle := mem_id_le_maxId hq
    simp only [addRecord, nextId]
    omega
  · intro t k; rfl
  · intro t1 k1 t2 k2; rfl

/-- C3 witness: the first added record (id 1) has a strictly smaller id
than the record a second `add` produces. -/
theorem addRecord_counter_policy_witness :
    (⟨1, "hello", "greet"⟩ : QuoteR) ∈ (addRecord [] "hello" "greet").1 ∧
      (⟨1, "hello", "greet"⟩ : QuoteR).id <
        (addRecord (addRecord [] "hello" "greet").1 "x" "y").2.id :=
  ⟨by decide, addRecord_counter_policy.1 _ "x" "y" _ (by decide)⟩

/-- C1: the merge engine processes each remote record in snapshot
order; a remote record whose id is absent locally is appended; a remote
record whose id is held by a (first) structurally different local
record overwrites that record in place; merging remote
`[{id:1,text:"A",category:"Y"}]` into `[{id:1,text:"A",category:"X"}]`
yields `[{id:1,text:"A",category:"Y"}]` with 1 reported changed. -/
theorem syncMerge_remote_wins :
    (∀ (c : List QuoteR) (r : QuoteR), (∀ l ∈ c, l.id ≠ r.id) →
        applyRemote c r = c ++ [r] ∧ remoteChanged c r = true) ∧
    (∀ (c1 c2 : List QuoteR) (l r : QuoteR), (∀ x ∈ c1, x.id ≠ r.id) →
        l.id = r.id → l ≠ r →
        applyRemote (c1 ++ l :: c2) r = c1 ++ r :: c2 ∧
        remoteChanged (c1 ++ l :: c2) r = true) ∧
    syncMerge [⟨1, "A", "X"⟩] [⟨1, "A", "Y"⟩] = ([⟨1, "A", "Y"⟩], 1) := by
  refine ⟨?_, ?_, by decide⟩
  · intro c r h
    induction c with
    | nil => exact ⟨rfl, rfl⟩
    | cons l ls ih =>
        have hl : l.id ≠ r.id := h l (List.mem_cons_self l ls)
        have hrest := ih (fun x hx => h x (List.mem_cons_of_mem _ hx))
        constructor
        · simp [applyRemote, hl, hrest.1]
        · simp [remoteChanged, hl, hrest.2]
  · intro c1 c2 l r h1 hid hne
    induction c1 with
    | nil =>
        constructor
        · simp [applyRemote, hid]
        · simp [remoteChanged, hid, hne]
    | cons x xs ih =>
        have hx : x.id ≠ r.id := h1 x (List.mem_cons_self x xs)
        have hrest := ih (fun y hy => h1 y (List.mem_cons_of_mem _ hy))
        constructor
        · simp [applyRemote, hx, hrest.1]
        · simp [remoteChanged, hx, hrest.2]

/-- C1 witness: an unknown id is appended, and a known id with
different content is overwritten in place. -/
theorem syncMerge_remote_wins_witness :
    applyRemote [] ⟨5, "B", "Z"⟩ = [] ++ [⟨5, "B", "Z"⟩] ∧
      applyRemote ([] ++ ⟨1, "A", "X"⟩ :: []) ⟨1, "A", "Y"⟩ =
        [] ++ ⟨1, "A", "Y"⟩ :: [] :=
  ⟨(syncMerge_remote_wins.1 [] ⟨5, "B", "Z"⟩ (by decide)).1,
   (syncMerge_remote_wins.2.1 [] [] ⟨1, "A", "X"⟩ ⟨1, "A", "Y"⟩ (by decide) rfl
      (by decide)).1⟩

/-- The import merge loop, for any starting accumulator: it appends some
suffix of genuinely new records and counts exactly them, and every
appended record failed the duplicate test against the starting
collection. -/
theorem importMerge_foldl_spec (L : List Quote) :
    ∀ (c : List Quote) (n : Nat), ∃ new,
      L.foldl
          (fun acc q =>
            if ∃ ex ∈ acc.1, ex.text = q.text ∧ ex.category = q.category then acc
            else (acc.1 ++ [q], acc.2 + 1))
          (c, n) = (c ++ new, n + new.length) ∧
      ∀ q ∈ new, ¬ ∃ ex ∈ c, ex.text = q.text ∧ ex.category = q.category := by
  induction L with
  | nil =>
      intro c n
      exact ⟨[], by simp, by simp⟩
  | cons q L ih =>
      intro c n
      by_cases hd : ∃ ex ∈ c, ex.text = q.text ∧ ex.category = q.category
      · rw [List.foldl_cons, if_pos hd]
        exact ih c n
      · rw [List.foldl_cons, if_neg hd]
        obtain ⟨new, heq, hnew⟩ := ih (c ++ [q]) (n + 1)
        refine ⟨q :: new, ?_, ?_⟩
        · rw [heq, List.append_assoc]
          simp only [List.singleton_append, List.length_cons]
          have : n + 1 + new.length = n + (new.length + 1) := by omega
          rw [this]
        · intro x hx
          rcases List.mem_cons.mp hx with rfl | hx
          · exact hd
          · intro hcon
            obtain ⟨ex, hex, hprop⟩ := hcon
            exact hnew x hx ⟨ex, List.mem_append_left _ hex, hprop⟩

/-- C6: an imported record whose text and category match a record
already in the collection is not added; the reported count is the
number of records actually added; importing `[{text:"A",category:"X"}]`
into a collection already containing that pair adds 0 records. -/
theorem importMerge_duplicate_suppression :
    (∀ cur L, ∃ new,
        importMerge cur L = (cur ++ new, new.length) ∧
        ∀ q ∈ new, ¬ ∃ ex ∈ cur, ex.text = q.text ∧ ex.category = q.category) ∧
    importFromJsonFile [⟨"A", "X"⟩]
        (Payload.parsed (Json.jarr
          [Json.jobj [("text", Json.jstr "A"), ("category", Json.jstr "X")]])) =
      ([⟨"A", "X"⟩], ImportResult.ok 0) := by
  constructor
  · intro cur L
    obtain ⟨new, heq, hnew⟩ := importMerge_foldl_spec L cur 0
    refine ⟨new, ?_, hnew⟩
    unfold importMerge
    rw [heq, Nat.zero_add]
  · decide

/-- C6 witness: the number of records an import merge actually appends
equals the reported count (instance of the general statement at a
one-record payload over a one-record collection). -/
theorem importMerge_duplicate_suppression_witness :
    ∃ new, importMerge [⟨"A", "X"⟩] [⟨"A", "X"⟩, ⟨"B", "Y"⟩] =
        ([⟨"A", "X"⟩] ++ new, new.length) ∧
      ∀ q ∈ new, ¬ ∃ ex ∈ [(⟨"A", "X"⟩ : Quote)],
          ex.text = q.text ∧ ex.category = q.category :=
  importMerge_duplicate_suppression.1 [⟨"A", "X"⟩] [⟨"A", "X"⟩, ⟨"B", "Y"⟩]

/-- C7: an unparseable import payload fails as malformed; a parsed
payload that is not an array of valid quote objects fails as invalid
shape; in both failure cases the collection is returned untouched. -/
theorem importFromJsonFile_error_atomic :
    (∀ cur, importFromJsonFile cur Payload.unparseable = (cur, ImportResult.malformed)) ∧
    (∀ cur j, (∀ xs, j = Json.jarr xs → xs.all isValidQuote = false) →
        importFromJsonFile cur (Payload.parsed j) = (cur, ImportResult.invalidShape)) ∧
    (∀ cur p, (importFromJsonFile cur p).2 = ImportResult.malformed ∨
        (importFromJsonFile cur p).2 = ImportResult.invalidShape →
        (importFromJsonFile cur p).1 = cur) := by
  refine ⟨fun cur => rfl, ?_, ?_⟩
  · intro cur j h
    cases j with
    | jarr xs =>
        have hx := h xs rfl
        simp [importFromJsonFile, hx]
    | null => rfl
    | jbool b => rfl
    | jnum n => rfl
    | jstr s => rfl
    | jobj f => rfl
  · intro cur p hp
    cases p with
    | unparseable => rfl
    | parsed j =>
        cases j with
        | jarr xs =>
            by_cases hx : xs.all isValidQuote = true
            · exfalso
              rcases hp with hp | hp <;> simp [importFromJsonFile, hx] at hp
            · simp [importFromJsonFile, hx]
        | null => rfl
        | jbool b => rfl
        | jnum n => rfl
        | jstr s => rfl
        | jobj f => rfl

/-- C7 witness: a parsed non-array payload aborts with the shape error
and leaves the collection untouched. -/
theorem importFromJsonFile_error_atomic_witness :
    importFromJsonFile [⟨"A", "X"⟩] (Payload.parsed (Json.jstr "oops")) =
      ([⟨"A", "X"⟩], ImportResult.invalidShape) :=
  importFromJsonFile_error_atomic.2.1 _ _ (fun _ h => nomatch h)

/-- Decoding inverts encoding on quote records. -/
theorem toQuote_encodeQuote (q : Quote) : toQuote (encodeQuote q) = q := by
  simp [toQuote, encodeQuote, jlook, List.lookup]

/-- Every encoded quote record passes the import validator. -/
theorem isValidQuote_encodeQuote (q : Quote) : isValidQuote (encodeQuote q) = true := by
  simp [isValidQuote, encodeQuote, jlook, List.lookup]

/-- An import whose every record already has a text/category match in
the collection adds nothing and reports 0. -/
theorem importMerge_absorbed : ∀ (L C : List Quote),
    (∀ q ∈ L, ∃ ex ∈ C, ex.text = q.text ∧ ex.category = q.category) →
    importMerge C L = (C, 0) := by
  intro L
  induction L with
  | nil => intro C _; rfl
  | cons q L ih =>
      intro C h
      have hq : ∃ ex ∈ C, ex.text = q.text ∧ ex.category = q.category :=
        h q (List.mem_cons_self q L)
      have step : importMerge C (q :: L) = importMerge C L := by
        unfold importMerge
        rw [List.foldl_cons, if_pos hq]
      rw [step]
      exact ih C (fun x hx => h x (List.mem_cons_of_mem _ hx))

/-- C5: serializing the full collection and importing the result back
reproduces the collection exactly: the import succeeds, suppresses every
record as a duplicate of itself, adds 0, and the collection is
unchanged. -/
theorem export_import_roundtrip (C : List Quote) :
    importFromJsonFile C (Payload.parsed (exportQuotesToJson C)) =
      (C, ImportResult.ok 0) := by
  have hall : (C.map encodeQuote).all isValidQuote = true := by
    rw [List.all_eq_true]
    intro j hj
    obtain ⟨q, _, rfl⟩ := List.mem_map.mp hj
    exact isValidQuote_encodeQuote q
  have hmap : (C.map encodeQuote).map toQuote = C := by
    rw [List.map_map]
    have : ∀ q ∈ C, (toQuote ∘ encodeQuote) q = id q := by
      intro q _
      simp [Function.comp, toQuote_encodeQuote]
    rw [List.map_congr_left this, List.map_id]
  have habs : importMerge C C = (C, 0) :=
    importMerge_absorbed C C (fun q hq => ⟨q, hq, rfl, rfl⟩)
  show importFromJsonFile C (Payload.parsed (Json.jarr (C.map encodeQuote))) = _
  simp only [importFromJsonFile, hall, if_true, hmap, habs]

/-- Membership in `firstSeen` is membership in the underlying list. -/
theorem mem_firstSeen : ∀ (m : List String) (x : String), x ∈ firstSeen m ↔ x ∈ m := by
  intro m
  induction m using firstSeen.induct with
  | case1 => intro x; rw [firstSeen]
  | case2 c cs ih =>
      intro x
      rw [firstSeen]
      simp only [List.mem_cons]
      rw [ih x, List.mem_filter]
      by_cases hx : x = c
      · simp [hx]
      · simp [hx, bne_iff_ne]

/-- Filtering preserves the relative order of first occurrences: a
strict order of indices in the filtered list forces the same strict
order in the unfiltered list. -/
theorem indexOf_filter_lt (p : String → Bool) :
    ∀ (l : List String) (a b : String), p a = true → p b = true →
      a ∈ l → b ∈ l →
      (l.filter p).indexOf a < (l.filter p).indexOf b →
      l.indexOf a < l.indexOf b := by
  intro l
  induction l with
  | nil => intro a b _ _ ha _ _; cases ha
  | cons h t ih =>
      intro a b hpa hpb ha hb hlt
      by_cases hph : p h = true
      · rw [List.filter_cons_of_pos hph] at hlt
        by_cases hha : h = a
        · subst hha
          rw [List.indexOf_cons_self] at hlt ⊢
          have hbh : b ≠ h := by
            intro e
            subst e
            rw [List.indexOf_cons_self] at hlt
            omega
          rw [List.indexOf_cons_ne _ (fun e => hbh e.symm)]
          omega
        · by_cases hhb : h = b
          · subst hhb
            rw [List.indexOf_cons_self, List.indexOf_cons_ne _ hha] at hlt
            omega
          · rw [List.indexOf_cons_ne _ hha, List.indexOf_cons_ne _ hhb] at hlt ⊢
            have hat : a ∈ t := by
              rcases List.mem_cons.mp ha with e | hm
              · exact absurd e.symm hha
              · exact hm
            have hbt : b ∈ t := by
              rcases List.mem_cons.mp hb with e | hm
              · exact absurd e.symm hhb
              · exact hm
            have := ih a b hpa hpb hat hbt (by omega)
            omega
      · have hph' : p h = false := by
          cases hp : p h
          · rfl
          · exact absurd hp hph
        have hha : h ≠ a := fun e => by rw [e, hpa] at hph'; cases hph'
        have hhb : h ≠ b := fun e => by rw [e, hpb] at hph'; cases hph'
        rw [List.filter_cons_of_neg hph] at hlt
        have hat : a ∈ t := by
          rcases List.mem_cons.mp ha with e | hm
          · exact absurd e.symm hha
          · exact hm
        have hbt : b ∈ t := by
          rcases List.mem_cons.mp hb with e | hm
          · exact absurd e.symm hhb
          · exact hm
        rw [List.indexOf_cons_ne _ hha, List.indexOf_cons_ne _ hhb]
        have := ih a b hpa hpb hat hbt hlt
        omega

/-- The elements of `firstSeen m` are strictly ordered by the index of
their first occurrence in `m`. -/
theorem pairwise_firstSeen : ∀ (m : List String),
    (firstSeen m).Pairwise (fun a b => m.indexOf a < m.indexOf b) := by
  intro m
  induction m using firstSeen.induct with
  | case1 => rw [firstSeen]; exact List.Pairwise.nil
  | case2 c cs ih =>
      rw [firstSeen]
      refine List.Pairwise.cons ?_ ?_
      · intro b hb
        have hbf := List.mem_filter.mp ((mem_firstSeen _ b).mp hb)
        have hbc : b ≠ c := by
          have h2 := hbf.2
          simpa [bne_iff_ne] using h2
        rw [List.indexOf_cons_self, List.indexOf_cons_ne _ (fun e => hbc e.symm)]
        omega
      · refine ih.imp_of_mem ?_
        intro a b ha hb hlt
        have haf := List.mem_filter.mp ((mem_firstSeen _ a).mp ha)
        have hbf := List.mem_filter.mp ((mem_firstSeen _ b).mp hb)
        have hac : a ≠ c := by
          have h2 := haf.2
          simpa [bne_iff_ne] using h2
        have hbc : b ≠ c := by
          have h2 := hbf.2
          simpa [bne_iff_ne] using h2
        have hcs := indexOf_filter_lt _ cs a b haf.2 hbf.2 haf.1 hbf.1 hlt
        rw [List.indexOf_cons_ne _ (fun e => hac e.symm),
            List.indexOf_cons_ne _ (fun e => hbc e.symm)]
        omega

/-- C9: the categories operation returns the distinct category values
with no repetitions, in order of first occurrence in the collection,
and returns the empty list on the empty collection. -/
theorem populateCategories_first_seen :
    (∀ qs : List Quote,
        (populateCategories qs).Nodup ∧
        (∀ c, c ∈ populateCategories qs ↔ c ∈ qs.map Quote.category) ∧
        (populateCategories qs).Pairwise (fun a b =>
          (qs.map Quote.category).indexOf a < (qs.map Quote.category).indexOf b)) ∧
    populateCategories [] = [] := by
  refine ⟨?_, by rw [populateCategories, List.map_nil, firstSeen]⟩
  intro qs
  have hp := pairwise_firstSeen (qs.map Quote.category)
  refine ⟨?_, fun c => mem_firstSeen _ c, hp⟩
  refine hp.imp ?_
  intro a b hlt e
  rw [e] at hlt
  omega

/-- C9 witness: the first default quote's category is listed. -/
theorem populateCategories_first_seen_witness :
    "Motivation" ∈ populateCategories DEFAULT_QUOTES :=
  ((populateCategories_first_seen.1 DEFAULT_QUOTES).2.1 "Motivation").mpr (by decide)

/-! Lemmas for merge idempotence.  `hasId c i` says some record of `c`
carries id `i`; `applyRemote` preserves and extends it, overwrites
commute or absorb by id, and a second pass of a snapshot finds every
remote record already in place. -/

def hasId (c : List QuoteR) (i : Nat) : Prop := ∃ q ∈ c, q.id = i

theorem hasId_nil {i : Nat} : ¬ hasId [] i := by simp [hasId]

theorem hasId_cons {l : QuoteR} {ls : List QuoteR} {i : Nat} :
    hasId (l :: ls) i ↔ l.id = i ∨ hasId ls i := by
  simp [hasId]

theorem hasId_applyRemote_self : ∀ (c : List QuoteR) (r : QuoteR),
    hasId (applyRemote c r) r.id := by
  intro c r
  induction c with
  | nil => exact ⟨r, by simp [applyRemote], rfl⟩
  | cons l ls ih =>
      rw [applyRemote]
      by_cases hid : l.id = r.id
      · rw [if_pos hid]
        exact hasId_cons.mpr (Or.inl rfl)
      · rw [if_neg hid]
        exact hasId_cons.mpr (Or.inr ih)

theorem hasId_applyRemote_mono {i : Nat} : ∀ (c : List QuoteR) (r : QuoteR),
    hasId c i → hasId (applyRemote c r) i := by
  intro c r
  induction c with
  | nil => intro h; exact absurd h hasId_nil
  | cons l ls ih =>
      intro h
      rw [applyRemote]
      by_cases hid : l.id = r.id
      · rw [if_pos hid]
        rcases hasId_cons.mp h with h | h
        · exact hasId_cons.mpr (Or.inl (by rw [← hid]; exact h))
        · exact hasId_cons.mpr (Or.inr h)
      · rw [if_neg hid]
        rcases hasId_cons.mp h with h | h
        · exact hasId_cons.mpr (Or.inl h)
        · exact hasId_cons.mpr (Or.inr (ih h))

theorem hasId_foldl_mono {i : Nat} : ∀ (s : List QuoteR) (c : List QuoteR),
    hasId c i → hasId (s.foldl applyRemote c) i := by
  intro s
  induction s with
  | nil => intro c h; exact h
  | cons r s ih =>
      intro c h
      rw [List.foldl_cons]
      exact ih _ (hasId_applyRemote_mono c r h)

theorem applyRemote_override : ∀ (c : List QuoteR) (r x : QuoteR),
    x.id = r.id → applyRemote (applyRemote c r) x = applyRemote c x := by
  intro c r x hxr
  induction c with
  | nil => simp [applyRemote, hxr]
  | cons l ls ih =>
      by_cases hl : l.id = r.id
      · simp [applyRemote, hl, hxr]
      · simp [applyRemote, hl, hxr, ih]

theorem applyRemote_comm : ∀ (c : List QuoteR) (r x : QuoteR),
    x.id ≠ r.id → hasId c r.id →
    applyRemote (applyRemote c r) x = applyRemote (applyRemote c x) r := by
  intro c r x hne
  have hne2 : ¬ r.id = x.id := fun e => hne e.symm
  induction c with
  | nil => intro h; exact absurd h hasId_nil
  | cons l ls ih =>
      intro h
      by_cases hlr : l.id = r.id
      · have hlx : ¬ l.id = x.id := by rw [hlr]; exact hne2
        simp [applyRemote, hlr, hlx, hne, hne2]
      · by_cases hlx : l.id = x.id
        · simp [applyRemote, hlr, hlx, hne, hne2]
        · have hr : hasId ls r.id := by
            rcases hasId_cons.mp h with h | h
            · exact absurd h hlr
            · exact h
          simp [applyRemote, hlr, hlx, ih hr]

theorem find?_applyRemote_self : ∀ (c : List QuoteR) (r : QuoteR),
    (applyRemote c r).find? (fun l => l.id == r.id) = some r := by
  intro c r
  induction c with
  | nil => simp [applyRemote, List.find?_cons]
  | cons l ls ih =>
      by_cases hl : l.id = r.id
      · simp [applyRemote, hl, List.find?_cons]
      · have hb : (l.id == r.id) = false := by simp [hl]
        simp [applyRemote, hl, List.find?_cons, hb, ih]

theorem find?_applyRemote_other {i : Nat} : ∀ (c : List QuoteR) (x : QuoteR),
    x.id ≠ i → (applyRemote c x).find? (fun l => l.id == i) = c.find? (fun l => l.id == i) := by
  intro c x hx
  have hxb : (x.id == i) = false := by simp [hx]
  induction c with
  | nil => simp [applyRemote, List.find?_cons, hxb]
  | cons l ls ih =>
      by_cases hl : l.id = x.id
      · have hlb : (l.id == i) = false := by simp [hl, hx]
        simp [applyRemote, hl, List.find?_cons, hxb, hlb]
      · by_cases hli : l.id = i
        · have hlb : (l.id == i) = true := by simp [hli]
          simp [applyRemote, hl, List.find?_cons, hlb]
        · have hlb : (l.id == i) = false := by simp [hli]
          simp [applyRemote, hl, List.find?_cons, hlb, ih]

theorem find?_foldl_other {i : Nat} : ∀ (s : List QuoteR) (c : List QuoteR),
    (∀ x ∈ s, x.id ≠ i) →
    (s.foldl applyRemote c).find? (fun l => l.id == i) = c.find? (fun l => l.id == i) := by
  intro s
  induction s with
  | nil => intro c _; rfl
  | cons x s ih =>
      intro c h
      rw [List.foldl_cons, ih _ (fun y hy => h y (List.mem_cons_of_mem _ hy)),
         find?_applyRemote_other _ _ (h x (List.mem_cons_self x s))]

theorem applyRemote_fixed : ∀ (c : List QuoteR) (r : QuoteR),
    c.find? (fun l => l.id == r.id) = some r → applyRemote c r = c := by
  intro c r
  induction c with
  | nil => intro h; cases h
  | cons l ls ih =>
      intro h
      by_cases hl : l.id = r.id
      · have hlb : (l.id == r.id) = true := by simp [hl]
        simp only [List.find?_cons, hlb] at h
        have hlr : l = r := by injection h
        rw [applyRemote, if_pos hl, hlr]
      · have hlb : (l.id == r.id) = false := by simp [hl]
        simp only [List.find?_cons, hlb] at h
        rw [applyRemote, if_neg hl, ih h]

theorem foldl_applyRemote_absorb : ∀ (s : List QuoteR) (c : List QuoteR) (r : QuoteR),
    (∃ x ∈ s, x.id = r.id) → hasId c r.id →
    s.foldl applyRemote (applyRemote c r) = s.foldl applyRemote c := by
  intro s
  induction s with
  | nil => intro c r h _; simp at h
  | cons x s ih =>
      intro c r hmem hc
      by_cases hx : x.id = r.id
      · rw [List.foldl_cons, List.foldl_cons, applyRemote_override c r x hx]
      · have hmem2 : ∃ y ∈ s, y.id = r.id := by
          rcases hmem with ⟨y, hy, hyid⟩
          rcases List.mem_cons.mp hy with e | hm
          · exact absurd (e ▸ hyid) hx
          · exact ⟨y, hm, hyid⟩
        rw [List.foldl_cons, List.foldl_cons, applyRemote_comm c r x hx hc,
           ih _ r hmem2 (hasId_applyRemote_mono c x hc)]

theorem foldl_applyRemote_idem : ∀ (s : List QuoteR) (c : List QuoteR),
    s.foldl applyRemote (s.foldl applyRemote c) = s.foldl applyRemote c := by
  intro s
  induction s with
  | nil => intro c; rfl
  | cons r s ih =>
      intro c
      rw [List.foldl_cons, List.foldl_cons]
      by_cases hmem : ∃ x ∈ s, x.id = r.id
      · rw [foldl_applyRemote_absorb s _ r hmem
            (hasId_foldl_mono s _ (hasId_applyRemote_self c r)), ih]
      · push_neg at hmem
        have hfind : (s.foldl applyRemote (applyRemote c r)).find? (fun l => l.id == r.id)
            = some r := by
          rw [find?_foldl_other s _ hmem, find?_applyRemote_self]
        rw [applyRemote_fixed _ r hfind, ih]

/-- The collection component of `syncMerge` is the plain fold of
`applyRemote` over the snapshot, for any starting count. -/
theorem syncMerge_fst : ∀ (s : List QuoteR) (c : List QuoteR) (n : Nat),
    (s.foldl
        (fun acc r =>
          (applyRemote acc.1 r, if remoteChanged acc.1 r then acc.2 + 1 else acc.2))
        (c, n)).1
      = s.foldl applyRemote c := by
  intro s
  induction s with
  | nil => intro c n; rfl
  | cons r s ih =>
      intro c n
      rw [List.foldl_cons, List.foldl_cons]
      exact ih _ _

/-- C2: merging the same remote snapshot twice in a row yields the same
collection as merging it once. -/
theorem syncMerge_idempotent (c s : List QuoteR) :
    (syncMerge (syncMerge c s).1 s).1 = (syncMerge c s).1 := by
  simp only [syncMerge]
  rw [syncMerge_fst, syncMerge_fst, foldl_applyRemote_idem]

end QuoteApp
